import Mathlib

/-!
# pdfGen.js: line wrapping, page layout, directory traversal and PDF merge

A shallow embedding of `src/pdfGen.js`.

* A JavaScript string is a list of characters (`Str`).
* A JavaScript number that is only compared is an element of an ordered type;
  the layout cursor `y`, which only takes integer values, is an `Int`; a page
  size is a rational number.
* A call that may throw inside a `try` block returns an `Option`.
-/

namespace PdfGen

/-- A JavaScript string, as its sequence of characters. -/
abbrev Str := List Char

/-! ## String primitives used by the source -/

/-- The call `s.split(sep)` for a one-character separator: the pieces between
the occurrences of `sep`; the result is never empty. -/
def split (sep : Char) : Str → List Str
  | [] => [[]]
  | c :: cs =>
    if c = sep then [] :: split sep cs
    else
      match split sep cs with
      | [] => [[c]]
      | w :: ws => (c :: w) :: ws

/-- The call `arr.join(sep)` for a one-character separator. -/
def join (sep : Char) : List Str → Str
  | [] => []
  | [w] => w
  | w :: v :: ws => w ++ sep :: join sep (v :: ws)

/-- The font object: only `widthOfTextAtSize(text, size)` is used. -/
structure Font (α : Type) where
  widthOfTextAtSize : Str → α → α

/-! ## wrapText (lines 53-70) -/

/-- The `for` loop of `wrapText`, from index `i` on: `words` holds
`words[i..]`, `lines` and `currentLine` are the two loop variables; the
result is `lines` after the final `lines.push(currentLine)`. -/
def wrapLoop {α : Type} [LT α] [DecidableRel (fun (a b : α) => a < b)]
    (font : Font α) (fontSize maxWidth : α) :
    List Str → List Str → Str → List Str
  | [], lines, currentLine => lines ++ [currentLine]
  | word :: rest, lines, currentLine =>
    if font.widthOfTextAtSize (currentLine ++ ' ' :: word) fontSize < maxWidth then
      wrapLoop font fontSize maxWidth rest lines (currentLine ++ ' ' :: word)
    else
      wrapLoop font fontSize maxWidth rest (lines ++ [currentLine]) word

/-- The function `wrapText(text, font, fontSize, maxWidth)`. The array
`text.split(" ")` is never empty, so `words[0]` is always a string; the first
branch is unreachable (see `split_ne_nil`). -/
def wrapText {α : Type} [LT α] [DecidableRel (fun (a b : α) => a < b)]
    (text : Str) (font : Font α) (fontSize maxWidth : α) : List Str :=
  match split ' ' text with
  | [] => [[]]
  | first :: rest => wrapLoop font fontSize maxWidth rest [] first

/-- The greedy wrap in the words of the specification: the accumulator `acc`
takes the next word when `acc + " " + word` measures under `maxWidth`;
otherwise `acc` is emitted and the word starts the next accumulator; the final
accumulator is emitted unconditionally. -/
def greedy {α : Type} [LT α] [DecidableRel (fun (a b : α) => a < b)]
    (font : Font α) (fontSize maxWidth : α) : Str → List Str → List Str
  | acc, [] => [acc]
  | acc, word :: rest =>
    if font.widthOfTextAtSize (acc ++ ' ' :: word) fontSize < maxWidth then
      greedy font fontSize maxWidth (acc ++ ' ' :: word) rest
    else
      acc :: greedy font fontSize maxWidth word rest

/-- The greedy wrap of a line, in the words of the specification: the
accumulator starts with the first word of the line. -/
def greedyWrap {α : Type} [LT α] [DecidableRel (fun (a b : α) => a < b)]
    (line : Str) (font : Font α) (fontSize maxWidth : α) : List Str :=
  greedy font fontSize maxWidth ((split ' ' line).headD []) (split ' ' line).tail

/-- The first word of a sub-line: `v.split(" ")[0]`. -/
def firstWord (v : Str) : Str := (split ' ' v).headD []

/-- A font whose width is the number of characters, whatever the size. -/
def charCountFont : Font Int := ⟨fun t _ => (t.length : Int)⟩

/-! ## createPdfFromFile: page setup and layout loop (lines 43-50, 73-96) -/

/-- One `page.drawText(text, options)` call: the text, its position and size. -/
structure DrawOp where
  text : Str
  x : Int
  y : Int
  size : Int
  deriving DecidableEq, Repr

/-- A page of a PDF document: its size and the texts drawn on it, in drawing
order. -/
structure Page where
  width : ℚ
  height : ℚ
  ops : List DrawOp
  deriving DecidableEq, Repr

/-- The call `doc.addPage([width, height])`: a fresh page without text. -/
def newPage (width height : ℚ) : Page := ⟨width, height, []⟩

/-- The page that pdf-lib creates when `addPage` is called without a size: an
empty page of size A4, 595.28 x 841.89. -/
def defaultPage : Page := newPage 595.28 841.89

/-- The pages of the document that `doc.save()` writes: pdf-lib first adds a
default page to a document that has no page (library behaviour, from the
pdf-lib documentation of the save option `addDefaultPage`, on by default). -/
def save (pages : List Page) : List Page :=
  if pages = [] then [defaultPage] else pages

/-- The call `page.drawText(text, options)` with position `x`, `y` and `size`. -/
def Page.drawText (page : Page) (text : Str) (x y size : Int) : Page :=
  { page with ops := page.ops ++ [⟨text, x, y, size⟩] }

def pageWidth : Int := 600
def pageHeight : Int := 800
def margin : Int := 10
def fontSize : Int := 8
def lineHeight : Int := 10
def maxLineWidth : Int := pageWidth - margin * 2

/-- The variables of the layout loop: the pages of `doc` added before the
current one, the current `page` (always the last page of `doc`), and the
cursor `y`. -/
structure LayoutState where
  pages : List Page
  page : Page
  y : Int

/-- The state before the loop: `y = pageHeight - margin` and the first page
added (lines 50 and 73). -/
def initLayout : LayoutState :=
  ⟨[], newPage pageWidth pageHeight, pageHeight - margin⟩

/-- The body of the inner `forEach` (lines 79-94) for one wrapped line. -/
def drawStep (st : LayoutState) (wrappedLine : Str) : LayoutState :=
  let st1 : LayoutState :=
    if st.y < margin + lineHeight then
      ⟨st.pages ++ [st.page], newPage pageWidth pageHeight, pageHeight - margin⟩
    else st
  ⟨st1.pages, st1.page.drawText wrappedLine margin st1.y fontSize, st1.y - lineHeight⟩

/-- The two nested `forEach` loops (lines 74-96) over the raw lines. -/
def layoutLoop {α : Type} [LT α] [DecidableRel (fun (a b : α) => a < b)] [IntCast α]
    (font : Font α) (lines : List Str) : LayoutState :=
  lines.foldl
    (fun st line => (wrapText line font (fontSize : α) (maxLineWidth : α)).foldl drawStep st)
    initLayout

/-- The pages of `doc` when the loop has ended, in page order. -/
def LayoutState.docPages (st : LayoutState) : List Page := st.pages ++ [st.page]

/-- The pages of the document that `createPdfFromFile` saves for a file whose
content is `content` (lines 39-40 and 73-98). -/
def createPdfFromFile {α : Type} [LT α] [DecidableRel (fun (a b : α) => a < b)] [IntCast α]
    (font : Font α) (content : Str) : List Page :=
  save (layoutLoop font (split '\n' content)).docPages

/-- All sub-lines of a document: `wrapText` of each raw line, in order. -/
def subLines {α : Type} [LT α] [DecidableRel (fun (a b : α) => a < b)] [IntCast α]
    (font : Font α) (lines : List Str) : List Str :=
  lines.flatMap (fun line => wrapText line font (fontSize : α) (maxLineWidth : α))

/-- The texts drawn on a sequence of pages, page by page and within a page in
drawing order. -/
def drawnTexts (pages : List Page) : List Str :=
  pages.flatMap (fun p => p.ops.map (fun d => d.text))

/-- The draw operations `ops` sit one below the other from height `y0`: each
at `x = margin`, the first at `y0`, each next one `lineHeight` lower. -/
def Placed : Int → List DrawOp → Prop
  | _, [] => True
  | y0, d :: ds => d.x = margin ∧ d.y = y0 ∧ Placed (y0 - lineHeight) ds

/-- The invariant of the layout loop. -/
structure LayoutInv (st : LayoutState) : Prop where
  cursor : st.y = pageHeight - margin - lineHeight * st.page.ops.length
  room : st.page.ops.length ≤ 78
  placed : Placed (pageHeight - margin) st.page.ops
  full : ∀ p ∈ st.pages, p.ops.length = 78 ∧ Placed (pageHeight - margin) p.ops
  nonempty : st.pages ≠ [] → st.page.ops ≠ []
  size : st.page.width = pageWidth ∧ st.page.height = pageHeight
    ∧ ∀ p ∈ st.pages, p.width = pageWidth ∧ p.height = pageHeight

/-! ## Node.js path functions and String.prototype.replace

These library functions are not part of the repository; they are written from
the Node.js documentation (POSIX variant) and the ECMAScript specification. -/

/-- The segment pass of `path.normalize`: empty and "." segments are skipped,
".." removes the previous segment when there is one that is not "..", and is
kept only above the root of a relative path. -/
def normalizeSegments (allowAboveRoot : Bool) : List Str → List Str → List Str
  | [], res => res
  | seg :: rest, res =>
    if seg = [] ∨ seg = ".".toList then normalizeSegments allowAboveRoot rest res
    else if seg = "..".toList then
      if res ≠ [] ∧ res.getLast? ≠ some "..".toList then
        normalizeSegments allowAboveRoot rest res.dropLast
      else if allowAboveRoot then
        normalizeSegments allowAboveRoot rest (res ++ ["..".toList])
      else normalizeSegments allowAboveRoot rest res
    else normalizeSegments allowAboveRoot rest (res ++ [seg])

/-- The function `path.normalize(path)`. -/
def normalize (path : Str) : Str :=
  if path = [] then ".".toList
  else
    let isAbsolute : Bool := path.head? = some '/'
    let trailingSeparator : Bool := path.getLast? = some '/'
    let res := join '/' (normalizeSegments (!isAbsolute) (split '/' path) [])
    if res = [] then
      if isAbsolute then "/".toList else if trailingSeparator then "./".toList else ".".toList
    else
      let res := if trailingSeparator then res ++ "/".toList else res
      if isAbsolute then '/' :: res else res

/-- The function `path.join(a, b)`: the non-empty arguments joined by "/" and
normalized. -/
def pathJoin (a b : Str) : Str :=
  match [a, b].filter (fun s => decide (s ≠ [])) with
  | [] => ".".toList
  | parts => normalize (join '/' parts)

/-- The function `path.extname(name)` for a directory entry name: the text
from the last "." on, or the empty string when the name has no "." or only a
leading one. -/
def extname (name : Str) : Str :=
  let r := name.reverse
  match r.dropWhile (fun c => decide (c ≠ '.')) with
  | [] => []
  | _ :: before =>
    if before = [] ∨ name = "..".toList then []
    else '.' :: (r.takeWhile (fun c => decide (c ≠ '.'))).reverse

/-- The call `s.replace(pat, rep)` with a string pattern: the first occurrence
of `pat` is replaced. -/
def replaceFirst (pat rep : Str) : Str → Str
  | [] => if pat = [] then rep else []
  | c :: cs =>
    if pat.isPrefixOf (c :: cs) then rep ++ (c :: cs).drop pat.length
    else c :: replaceFirst pat rep cs

/-! ## Constants (lines 7-20) -/

def ignoreDirectories : List Str :=
  ["node_modules".toList, ".github".toList, "package.json".toList,
   "package-lock.json".toList, "drizzle".toList, "drizzle.config.ts".toList,
   "Readme.md".toList, "tsconfig.json".toList, "yarn.lock".toList]

def outputDirectory : Str := "output/astrix-event-api-alpha".toList

/-- The extension allowlist of line 124. -/
def allowedExtensions : List Str :=
  [".js".toList, ".ts".toList, ".sql".toList, ".py".toList, ".java".toList,
   ".html".toList, ".css".toList, ".txt".toList]

/-- The value returned by `createPdfFromFile(filePath, relativePath)` (lines 24
and 102): the output path with ".pdf" appended. -/
def createPdfFromFilePath (relativePath : Str) : Str :=
  pathJoin outputDirectory relativePath ++ ".pdf".toList

/-! ## traverseDirectory (lines 106-139) -/

/-- A directory entry as `readdirSync` with `withFileTypes` reports it: a
directory with its own entries, or anything else. -/
inductive Entry where
  | file (name : Str)
  | dir (name : Str) (children : List Entry)

mutual
/-- The `for` loop of `traverseDirectory` over the entries of `directory`.
The oracle `renders fullPath relativePath` tells whether
`createPdfFromFile` completes without throwing. -/
def traverseDirectory (renders : Str → Str → Bool) (directory relativeDirectory : Str) :
    List Entry → List Str → List Str
  | [], pdfFiles => pdfFiles
  | file :: files, pdfFiles =>
    traverseDirectory renders directory relativeDirectory files
      (traverseEntry renders directory relativeDirectory file pdfFiles)
/-- The body of the `for` loop of `traverseDirectory` for one entry. -/
def traverseEntry (renders : Str → Str → Bool) (directory relativeDirectory : Str) :
    Entry → List Str → List Str
  | Entry.dir name children, pdfFiles =>
    if name ∉ ignoreDirectories then
      traverseDirectory renders (pathJoin directory name) (pathJoin relativeDirectory name)
        children pdfFiles
    else pdfFiles
  | Entry.file name, pdfFiles =>
    if extname name ∈ allowedExtensions then
      if renders (pathJoin directory name) (pathJoin relativeDirectory name) then
        pdfFiles ++ [createPdfFromFilePath (pathJoin relativeDirectory name)]
      else pdfFiles
    else pdfFiles
end

/-! ## mergePdfs (lines 142-186) -/

/-- The fallible calls inside the `try` block of `mergePdfs`; `none` stands
for a thrown exception. `copyPages doc` is
`mergedPdf.copyPages(pdfDoc, pdfDoc.getPageIndices())`: the pages of the
loaded document in index order. -/
structure MergeEnv (Doc : Type) where
  readFileSync : Str → Option Str
  load : Str → Option Doc
  copyPages : Doc → Option (List Page)

/-- The header text of lines 160-163. -/
def filePathComment (pdfPath : Str) : Str :=
  "// ".toList ++ replaceFirst (outputDirectory ++ "/".toList) [] pdfPath

/-- The header page of lines 164-171. -/
def headerPage (pdfPath : Str) : Page :=
  (newPage 600 50).drawText (filePathComment pdfPath) 20 30 10

/-- The body of the `for` loop of `mergePdfs` (lines 155-180): every throw is
caught and leaves `mergedPdf` as it is at that point. -/
def mergeStep {Doc : Type} (env : MergeEnv Doc) (mergedPdf : List Page) (pdfPath : Str) :
    List Page :=
  match env.readFileSync pdfPath with
  | none => mergedPdf
  | some pdfData =>
    match env.load pdfData with
    | none => mergedPdf
    | some pdfDoc =>
      let withHeader := mergedPdf ++ [headerPage pdfPath]
      match env.copyPages pdfDoc with
      | none => withHeader
      | some copiedPages => withHeader ++ copiedPages

/-- The pages of the document that `mergePdfs` writes to `outputFile`: the
pages of `mergedPdf` when the loop has ended (lines 154-181), as saved by
`mergedPdf.save()` (line 183). -/
def mergePdfs {Doc : Type} (env : MergeEnv Doc) (pdfPaths : List Str) : List Page :=
  save (pdfPaths.foldl (mergeStep env) [])

/-- A name that `readdirSync` can report for a directory entry: not empty,
without "/", and neither "." nor "..". -/
def IsEntryName (s : Str) : Prop :=
  s ≠ [] ∧ '/' ∉ s ∧ s ≠ ".".toList ∧ s ≠ "..".toList

instance instDecidableIsEntryName : DecidablePred IsEntryName := fun s => by
  unfold IsEntryName
  infer_instance

mutual
/-- Every name in the entry is one that `readdirSync` can report. -/
def Entry.WellNamed : Entry → Prop
  | Entry.file name => IsEntryName name
  | Entry.dir name children => IsEntryName name ∧ WellNamedList children
/-- Every name in the entries is one that `readdirSync` can report. -/
def WellNamedList : List Entry → Prop
  | [] => True
  | e :: es => Entry.WellNamed e ∧ WellNamedList es
end

/-- The path is what `createPdfFromFile` returns for a relative path made of
directory entry names separated by "/". -/
def IsRenderedPath (pdfPath : Str) : Prop :=
  ∃ segs : List Str, segs ≠ [] ∧ (∀ w ∈ segs, IsEntryName w)
    ∧ pdfPath = createPdfFromFilePath (join '/' segs)

/-! ## Example environments -/

/-- An example of a loaded document: its pages, and whether its page tree can
be walked by `copyPages`. -/
structure ExampleDoc where
  pages : List Page
  intact : Bool
  deriving DecidableEq

/-- A one-page body document carrying the text `t`. -/
def bodyPage (t : Str) : Page := ⟨600, 800, [⟨t, 10, 790, 8⟩]⟩

/-- An example file system and PDF library: "missing.pdf" cannot be read,
"corrupt.pdf" does not load, "damaged.pdf" loads as a two-page document whose
page tree cannot be walked, and every other path is a sound one-page
document. -/
def exampleEnv : MergeEnv ExampleDoc where
  readFileSync path := if path = "missing.pdf".toList then none else some path
  load data :=
    if data = "corrupt.pdf".toList then none
    else if data = "damaged.pdf".toList then
      some ⟨[bodyPage "p1".toList, bodyPage "p2".toList], false⟩
    else some ⟨[bodyPage data], true⟩
  copyPages doc := if doc.intact then some doc.pages else none

/-! ## Lemmas on split and join -/

theorem split_ne_nil (sep : Char) (s : Str) : split sep s ≠ [] := by
  cases s with
  | nil => simp [split]
  | cons c cs =>
    unfold split
    split_ifs
    · simp
    · cases split sep cs <;> simp

theorem split_of_not_mem (sep : Char) (s : Str) (h : sep ∉ s) : split sep s = [s] := by
  induction s with
  | nil => simp [split]
  | cons c cs ih =>
    simp only [List.mem_cons, not_or] at h
    have hc : c ≠ sep := fun e => h.1 e.symm
    simp [split, hc, ih h.2]

theorem split_append_sep (sep : Char) (a b : Str) :
    split sep (a ++ sep :: b) = split sep a ++ split sep b := by
  induction a with
  | nil => simp [split]
  | cons c cs ih =>
    by_cases hc : c = sep
    · simp [split, hc, ih]
    · have hne := split_ne_nil sep cs
      cases hs : split sep cs with
      | nil => exact absurd hs hne
      | cons w ws =>
        rw [hs] at ih
        simp [split, hc, ih, hs]

theorem not_mem_of_mem_split (sep : Char) (s w : Str) (h : w ∈ split sep s) : sep ∉ w := by
  induction s generalizing w with
  | nil =>
    simp [split] at h
    simp [h]
  | cons c cs ih =>
    by_cases hc : c = sep
    · simp only [split, hc, if_true, List.mem_cons] at h
      rcases h with h | h
      · simp [h]
      · exact ih w h
    · cases hs : split sep cs with
      | nil => exact absurd hs (split_ne_nil sep cs)
      | cons v vs =>
        simp only [split, hc, if_false, hs, List.mem_cons] at h
        rcases h with h | h
        · subst h
          have hv := ih v (by simp [hs])
          simp only [List.mem_cons, not_or]
          exact ⟨fun e => hc e.symm, hv⟩
        · exact ih w (by simp [hs, h])

theorem join_split (sep : Char) (s : Str) : join sep (split sep s) = s := by
  induction s with
  | nil => simp [split, join]
  | cons c cs ih =>
    by_cases hc : c = sep
    · cases hs : split sep cs with
      | nil => exact absurd hs (split_ne_nil sep cs)
      | cons v vs =>
        rw [hs] at ih
        simp [split, hc, hs, join, ih]
    · cases hs : split sep cs with
      | nil => exact absurd hs (split_ne_nil sep cs)
      | cons v vs =>
        rw [hs] at ih
        cases vs with
        | nil =>
          simp only [join] at ih
          simp [split, hc, hs, join, ih]
        | cons u us =>
          simp only [join] at ih
          simp [split, hc, hs, join, ih]

theorem join_cons_cons (sep : Char) (a b : Str) (ws : List Str) :
    join sep ((a ++ sep :: b) :: ws) = join sep (a :: b :: ws) := by
  cases ws with
  | nil => simp [join]
  | cons w ws => simp [join]

theorem join_cons_of_ne_nil (sep : Char) (a : Str) (ws : List Str) (h : ws ≠ []) :
    join sep (a :: ws) = a ++ sep :: join sep ws := by
  cases ws with
  | nil => exact absurd rfl h
  | cons w ws => simp [join]

/-! ## Lemmas on the wrap loop -/

section Wrap

variable {α : Type} [LT α] [DecidableRel (fun (a b : α) => a < b)]

theorem wrapLoop_eq_greedy (font : Font α) (fontSize maxWidth : α)
    (ws lines : List Str) (cur : Str) :
    wrapLoop font fontSize maxWidth ws lines cur
      = lines ++ greedy font fontSize maxWidth cur ws := by
  induction ws generalizing lines cur with
  | nil => simp [wrapLoop, greedy]
  | cons w ws ih =>
    unfold wrapLoop greedy
    split_ifs
    · exact ih _ _
    · rw [ih]
      simp

theorem wrapText_eq_greedy (text : Str) (font : Font α) (fontSize maxWidth : α) :
    wrapText text font fontSize maxWidth
      = greedy font fontSize maxWidth ((split ' ' text).headD []) (split ' ' text).tail := by
  unfold wrapText
  cases hs : split ' ' text with
  | nil => exact absurd hs (split_ne_nil _ _)
  | cons w ws => simp [wrapLoop_eq_greedy]

theorem greedy_ne_nil (font : Font α) (fontSize maxWidth : α) (cur : Str) (ws : List Str) :
    greedy font fontSize maxWidth cur ws ≠ [] := by
  induction ws generalizing cur with
  | nil => simp [greedy]
  | cons w ws ih =>
    unfold greedy
    split_ifs
    · exact ih _
    · simp

theorem join_greedy (font : Font α) (fontSize maxWidth : α) (cur : Str) (ws : List Str) :
    join ' ' (greedy font fontSize maxWidth cur ws) = join ' ' (cur :: ws) := by
  induction ws generalizing cur with
  | nil => simp [greedy]
  | cons w ws ih =>
    unfold greedy
    split_ifs
    · rw [ih, join_cons_cons]
    · rw [join_cons_of_ne_nil _ _ _ (greedy_ne_nil _ _ _ _ _), ih]
      simp [join]

theorem flatMap_split_greedy (font : Font α) (fontSize maxWidth : α) (cur : Str) (ws : List Str)
    (hws : ∀ w ∈ ws, ' ' ∉ w) :
    (greedy font fontSize maxWidth cur ws).flatMap (split ' ') = split ' ' cur ++ ws := by
  induction ws generalizing cur with
  | nil => simp [greedy]
  | cons w ws ih =>
    have hw : split ' ' w = [w] := split_of_not_mem _ _ (hws w (by simp))
    have hws' : ∀ v ∈ ws, ' ' ∉ v := fun v hv => hws v (by simp [hv])
    unfold greedy
    split_ifs
    · rw [ih _ hws', split_append_sep, hw]
      simp
    · rw [List.flatMap_cons, ih _ hws', hw]
      simp

theorem greedy_space_lt (font : Font α) (fontSize maxWidth : α) (cur : Str) (ws : List Str)
    (hcur : ' ' ∈ cur → font.widthOfTextAtSize cur fontSize < maxWidth)
    (hws : ∀ w ∈ ws, ' ' ∉ w) :
    ∀ u ∈ greedy font fontSize maxWidth cur ws,
      ' ' ∈ u → font.widthOfTextAtSize u fontSize < maxWidth := by
  induction ws generalizing cur with
  | nil =>
    intro u hu
    simp only [greedy, List.mem_singleton] at hu
    subst hu
    exact hcur
  | cons w ws ih =>
    have hws' : ∀ v ∈ ws, ' ' ∉ v := fun v hv => hws v (by simp [hv])
    unfold greedy
    split_ifs with hfit
    · exact ih _ (fun _ => hfit) hws'
    · intro u hu
      rcases List.mem_cons.1 hu with h | h
      · subst h
        exact hcur
      · exact ih w (fun hsp => absurd hsp (hws w (by simp))) hws' u h

theorem firstWord_append_sep (a b : Str) : firstWord (a ++ ' ' :: b) = firstWord a := by
  unfold firstWord
  rw [split_append_sep]
  cases hs : split ' ' a with
  | nil => exact absurd hs (split_ne_nil _ _)
  | cons w ws => simp

theorem firstWord_of_not_mem (w : Str) (h : ' ' ∉ w) : firstWord w = w := by
  simp [firstWord, split_of_not_mem _ _ h]

theorem firstWord_head_greedy (font : Font α) (fontSize maxWidth : α) (cur : Str)
    (ws : List Str) :
    firstWord ((greedy font fontSize maxWidth cur ws).headD []) = firstWord cur := by
  induction ws generalizing cur with
  | nil => simp [greedy]
  | cons w ws ih =>
    unfold greedy
    split_ifs
    · rw [ih, firstWord_append_sep]
    · simp

theorem greedy_consecutive (font : Font α) (fontSize maxWidth : α) (cur : Str) (ws : List Str)
    (hws : ∀ w ∈ ws, ' ' ∉ w) (pre : List Str) (u v : Str) (post : List Str)
    (h : greedy font fontSize maxWidth cur ws = pre ++ u :: v :: post) :
    ¬ font.widthOfTextAtSize (u ++ ' ' :: firstWord v) fontSize < maxWidth := by
  induction ws generalizing cur pre with
  | nil =>
    simp only [greedy] at h
    cases pre with
    | nil => simp at h
    | cons p ps => simp at h
  | cons w ws ih =>
    have hws' : ∀ x ∈ ws, ' ' ∉ x := fun x hx => hws x (by simp [hx])
    unfold greedy at h
    split_ifs at h with hfit
    · exact ih _ hws' pre h
    · cases pre with
      | nil =>
        simp only [List.nil_append, List.cons.injEq] at h
        obtain ⟨hu, hv⟩ := h
        have hfw := firstWord_head_greedy font fontSize maxWidth w ws
        rw [hv] at hfw
        simp only [List.headD_cons] at hfw
        rw [hfw, firstWord_of_not_mem w (hws w (by simp)), ← hu]
        exact hfit
      | cons p ps =>
        simp only [List.cons_append, List.cons.injEq] at h
        exact ih _ hws' ps h.2

end Wrap

/-! ## Lemmas on the layout loop -/

theorem foldl_flatMap_eq {σ β γ : Type} (f : σ → γ → σ) (g : β → List γ) (l : List β)
    (init : σ) :
    l.foldl (fun st a => (g a).foldl f st) init = (l.flatMap g).foldl f init := by
  induction l generalizing init with
  | nil => simp
  | cons a l ih => simp [List.flatMap_cons, List.foldl_append, ih]

theorem layoutLoop_eq_foldl {α : Type} [LT α] [DecidableRel (fun (a b : α) => a < b)]
    [IntCast α] (font : Font α) (lines : List Str) :
    layoutLoop font lines = (subLines font lines).foldl drawStep initLayout := by
  unfold layoutLoop subLines
  exact foldl_flatMap_eq _ _ _ _

theorem placed_append (y0 : Int) (ops : List DrawOp) (d : DrawOp) :
    Placed y0 (ops ++ [d])
      ↔ Placed y0 ops ∧ d.x = margin ∧ d.y = y0 - lineHeight * ops.length := by
  induction ops generalizing y0 with
  | nil => simp [Placed]
  | cons e es ih =>
    show (e.x = margin ∧ e.y = y0 ∧ Placed (y0 - lineHeight) (es ++ [d]))
      ↔ (e.x = margin ∧ e.y = y0 ∧ Placed (y0 - lineHeight) es)
        ∧ d.x = margin ∧ d.y = y0 - lineHeight * ((e :: es).length : Int)
    rw [ih (y0 - lineHeight)]
    simp only [List.length_cons, Nat.cast_add, Nat.cast_one]
    constructor
    · rintro ⟨h1, h2, h3, h4, h5⟩
      refine ⟨⟨h1, h2, h3⟩, h4, ?_⟩
      rw [h5]
      ring
    · rintro ⟨⟨h1, h2, h3⟩, h4, h5⟩
      refine ⟨h1, h2, h3, h4, ?_⟩
      rw [h5]
      ring

theorem placed_bounds (y0 : Int) (ops : List DrawOp) (h : Placed y0 ops) :
    ∀ d ∈ ops, d.x = margin ∧ d.y ≤ y0 ∧ y0 - lineHeight * ((ops.length : Int) - 1) ≤ d.y := by
  induction ops generalizing y0 with
  | nil => simp
  | cons e es ih =>
    obtain ⟨h1, h2, h3⟩ := h
    intro d hd
    rcases List.mem_cons.1 hd with hd | hd
    · subst hd
      refine ⟨h1, le_of_eq h2, ?_⟩
      simp only [List.length_cons, Nat.cast_add, Nat.cast_one, lineHeight]
      omega
    · obtain ⟨a, b, c⟩ := ih _ h3 d hd
      refine ⟨a, ?_, ?_⟩
      · simp only [lineHeight] at b
        omega
      · simp only [List.length_cons, Nat.cast_add, Nat.cast_one, lineHeight] at c ⊢
        omega

theorem placed_nodup (y0 : Int) (ops : List DrawOp) (h : Placed y0 ops) :
    (ops.map (fun d => d.y)).Nodup := by
  induction ops generalizing y0 with
  | nil => simp
  | cons e es ih =>
    obtain ⟨_, h2, h3⟩ := h
    simp only [List.map_cons, List.nodup_cons, List.mem_map, not_exists, not_and]
    refine ⟨?_, ih _ h3⟩
    intro d hd hy
    have hb := (placed_bounds _ _ h3 d hd).2.1
    simp only [lineHeight] at hb
    omega

theorem placed_consecutive (y0 : Int) (pre : List DrawOp) (d e : DrawOp) (post : List DrawOp)
    (h : Placed y0 (pre ++ d :: e :: post)) : e.y = d.y - lineHeight := by
  induction pre generalizing y0 with
  | nil =>
    simp only [List.nil_append, Placed] at h
    rw [h.2.1, h.2.2.2.1]
  | cons a as ih =>
    simp only [List.cons_append, Placed] at h
    exact ih _ h.2.2

theorem layoutInv_init : LayoutInv initLayout := by
  refine ⟨?_, ?_, ?_, ?_, ?_, ?_⟩ <;> simp [initLayout, newPage, Placed]

theorem layoutInv_drawStep (st : LayoutState) (t : Str) (h : LayoutInv st) :
    LayoutInv (drawStep st t) := by
  obtain ⟨hc, hr, hp, hf, hn, hs⟩ := h
  unfold drawStep
  by_cases hy : st.y < margin + lineHeight
  · have hk : st.page.ops.length = 78 := by
      simp only [pageHeight, margin, lineHeight] at hc hy
      omega
    simp only [hy, if_true]
    refine ⟨?_, ?_, ?_, ?_, ?_, ?_⟩
    · simp [Page.drawText, newPage]
    · simp [Page.drawText, newPage]
    · simp [Page.drawText, newPage, Placed]
    · intro p hmem
      rcases List.mem_append.1 hmem with hmem | hmem
      · exact hf p hmem
      · simp only [List.mem_singleton] at hmem
        subst hmem
        exact ⟨hk, hp⟩
    · intro _
      simp [Page.drawText, newPage]
    · refine ⟨by simp [Page.drawText, newPage], by simp [Page.drawText, newPage], ?_⟩
      intro p hmem
      rcases List.mem_append.1 hmem with hmem | hmem
      · exact hs.2.2 p hmem
      · simp only [List.mem_singleton] at hmem
        subst hmem
        exact ⟨hs.1, hs.2.1⟩
  · simp only [hy, if_false]
    refine ⟨?_, ?_, ?_, hf, ?_, ?_⟩
    · simp only [Page.drawText, List.length_append, List.length_singleton, Nat.cast_add,
        Nat.cast_one]
      rw [hc]
      ring
    · simp only [Page.drawText, List.length_append, List.length_singleton]
      simp only [pageHeight, margin, lineHeight] at hc hy
      omega
    · simp only [Page.drawText]
      rw [placed_append]
      exact ⟨hp, rfl, hc⟩
    · intro _
      simp [Page.drawText]
    · exact ⟨hs.1, hs.2.1, hs.2.2⟩

theorem layoutInv_foldl (ts : List Str) (st : LayoutState) (h : LayoutInv st) :
    LayoutInv (ts.foldl drawStep st) := by
  induction ts generalizing st with
  | nil => exact h
  | cons t ts ih => exact ih _ (layoutInv_drawStep st t h)

theorem drawnTexts_append (ps qs : List Page) :
    drawnTexts (ps ++ qs) = drawnTexts ps ++ drawnTexts qs := by
  simp [drawnTexts, List.flatMap_append]

theorem drawnTexts_drawStep (st : LayoutState) (t : Str) :
    drawnTexts (drawStep st t).docPages = drawnTexts st.docPages ++ [t] := by
  unfold drawStep LayoutState.docPages
  by_cases hy : st.y < margin + lineHeight
  · simp [hy, drawnTexts, Page.drawText, newPage]
  · simp [hy, drawnTexts, Page.drawText]

theorem drawnTexts_foldl (ts : List Str) (st : LayoutState) :
    drawnTexts (ts.foldl drawStep st).docPages = drawnTexts st.docPages ++ ts := by
  induction ts generalizing st with
  | nil => simp
  | cons t ts ih => simp [ih, drawnTexts_drawStep]

theorem drawnTexts_length_full (ps : List Page) (h : ∀ p ∈ ps, p.ops.length = 78) :
    (drawnTexts ps).length = 78 * ps.length := by
  induction ps with
  | nil => simp [drawnTexts]
  | cons p ps ih =>
    have h1 := h p (by simp)
    have h2 := ih (fun q hq => h q (by simp [hq]))
    simp only [drawnTexts, List.flatMap_cons, List.length_append, List.length_map,
      List.length_cons] at h2 ⊢
    omega

theorem layoutInv_count (st : LayoutState) (h : LayoutInv st) :
    (drawnTexts st.docPages).length = 78 * st.pages.length + st.page.ops.length := by
  unfold LayoutState.docPages
  rw [drawnTexts_append, List.length_append,
    drawnTexts_length_full _ (fun p hp => (h.full p hp).1)]
  simp [drawnTexts]

theorem layoutLoop_inv {α : Type} [LT α] [DecidableRel (fun (a b : α) => a < b)]
    [IntCast α] (font : Font α) (lines : List Str) : LayoutInv (layoutLoop font lines) := by
  rw [layoutLoop_eq_foldl]
  exact layoutInv_foldl _ _ layoutInv_init

theorem layoutLoop_texts {α : Type} [LT α] [DecidableRel (fun (a b : α) => a < b)]
    [IntCast α] (font : Font α) (lines : List Str) :
    drawnTexts (layoutLoop font lines).docPages = subLines font lines := by
  rw [layoutLoop_eq_foldl, drawnTexts_foldl]
  simp [drawnTexts, initLayout, LayoutState.docPages, newPage]

/-! ## The claims on wrapText -/

/-- C1: joining the sub-lines returned by wrapText with a single space, in
order, gives back exactly the original line, and the words of the sub-lines,
read in order, are exactly the words of `line.split(" ")`: none is dropped,
duplicated or reordered. This holds for every line, every font-metric
function and every maxWidth. -/
theorem wrapText_join_roundtrip {α : Type} [LT α] [DecidableRel (fun (a b : α) => a < b)]
    (line : Str) (font : Font α) (fontSize maxWidth : α) :
    join ' ' (wrapText line font fontSize maxWidth) = line
      ∧ (wrapText line font fontSize maxWidth).flatMap (split ' ') = split ' ' line := by
  rw [wrapText_eq_greedy]
  cases hs : split ' ' line with
  | nil => exact absurd hs (split_ne_nil _ _)
  | cons w ws =>
    have hall : ∀ v ∈ w :: ws, ' ' ∉ v := fun v hv =>
      not_mem_of_mem_split ' ' line v (by rw [hs]; exact hv)
    constructor
    · simp only [List.headD_cons, List.tail_cons]
      rw [join_greedy, ← hs, join_split]
    · simp only [List.headD_cons, List.tail_cons]
      rw [flatMap_split_greedy _ _ _ _ _ (fun v hv => hall v (by simp [hv])),
        split_of_not_mem _ _ (hall w (by simp))]
      simp

/-- C2: for a text that contains no space character (the empty string
included), whatever the font metric and maxWidth, wrapText returns exactly one
sub-line, equal to the text: nothing is split or truncated. -/
theorem wrapText_no_space {α : Type} [LT α] [DecidableRel (fun (a b : α) => a < b)]
    (text : Str) (font : Font α) (fontSize maxWidth : α) (h : ' ' ∉ text) :
    wrapText text font fontSize maxWidth = [text] := by
  simp [wrapText, split_of_not_mem _ _ h, wrapLoop]

/-- Witness for C2: an oversized single word (width 10 against maxWidth 3) and
the empty line are returned whole. -/
theorem wrapText_no_space_witness :
    ' ' ∉ "oversized1".toList
      ∧ wrapText "oversized1".toList charCountFont 8 3 = ["oversized1".toList]
      ∧ wrapText ([] : Str) charCountFont 8 3 = [[]] :=
  ⟨by decide, wrapText_no_space _ _ _ _ (by decide), wrapText_no_space _ _ _ _ (by decide)⟩

/-- C3: wrapText is the greedy wrap over the words of `line.split(" ")` (a
word is joined to the accumulator exactly when the joined text measures
strictly under maxWidth, otherwise the accumulator is emitted and the word
starts the next sub-line); every returned sub-line containing a space measures
strictly under maxWidth; for consecutive sub-lines u, v the text
u + " " + (first word of v) measures at least maxWidth; and under any metric
where "a b" and "c d" fit but "a b c" and "c d e" do not, "a b c d e" yields
["a b","c d","e"], "" yields [""] and "foo" yields ["foo"]. -/
theorem wrapText_greedy {α : Type} [LinearOrder α]
    (line : Str) (font : Font α) (fontSize maxWidth : α) :
    wrapText line font fontSize maxWidth = greedyWrap line font fontSize maxWidth
      ∧ (∀ u ∈ wrapText line font fontSize maxWidth,
          ' ' ∈ u → font.widthOfTextAtSize u fontSize < maxWidth)
      ∧ (∀ (pre : List Str) (u v : Str) (post : List Str),
          wrapText line font fontSize maxWidth = pre ++ u :: v :: post →
          maxWidth ≤ font.widthOfTextAtSize (u ++ ' ' :: firstWord v) fontSize)
      ∧ (font.widthOfTextAtSize "a b".toList fontSize < maxWidth →
          font.widthOfTextAtSize "c d".toList fontSize < maxWidth →
          ¬ font.widthOfTextAtSize "a b c".toList fontSize < maxWidth →
          ¬ font.widthOfTextAtSize "c d e".toList fontSize < maxWidth →
          wrapText "a b c d e".toList font fontSize maxWidth
              = ["a b".toList, "c d".toList, "e".toList]
            ∧ wrapText "".toList font fontSize maxWidth = ["".toList]
            ∧ wrapText "foo".toList font fontSize maxWidth = ["foo".toList]) := by
  refine ⟨wrapText_eq_greedy _ _ _ _, ?_, ?_, ?_⟩
  · rw [wrapText_eq_greedy]
    cases hs : split ' ' line with
    | nil => exact absurd hs (split_ne_nil _ _)
    | cons w ws =>
      have hall : ∀ v ∈ w :: ws, ' ' ∉ v := fun v hv =>
        not_mem_of_mem_split ' ' line v (by rw [hs]; exact hv)
      exact greedy_space_lt font fontSize maxWidth w ws
        (fun hsp => absurd hsp (hall w (by simp))) (fun v hv => hall v (by simp [hv]))
  · intro pre u v post h
    rw [wrapText_eq_greedy] at h
    cases hs : split ' ' line with
    | nil => exact absurd hs (split_ne_nil _ _)
    | cons w ws =>
      rw [hs] at h
      have hall : ∀ v ∈ w :: ws, ' ' ∉ v := fun v hv =>
        not_mem_of_mem_split ' ' line v (by rw [hs]; exact hv)
      exact not_lt.1 (greedy_consecutive font fontSize maxWidth w ws
        (fun v hv => hall v (by simp [hv])) pre u v post h)
  · intro h1 h2 h3 h4
    have e1 : ("a".toList ++ ' ' :: "b".toList : Str) = "a b".toList := rfl
    have e2 : ("a b".toList ++ ' ' :: "c".toList : Str) = "a b c".toList := rfl
    have e3 : ("c".toList ++ ' ' :: "d".toList : Str) = "c d".toList := rfl
    have e4 : ("c d".toList ++ ' ' :: "e".toList : Str) = "c d e".toList := rfl
    refine ⟨?_, wrapText_no_space _ _ _ _ (by decide), wrapText_no_space _ _ _ _ (by decide)⟩
    have hsplit : split ' ' "a b c d e".toList
        = ["a".toList, "b".toList, "c".toList, "d".toList, "e".toList] := by decide
    rw [wrapText_eq_greedy, hsplit]
    simp only [List.headD_cons, List.tail_cons]
    rw [greedy, e1, if_pos h1, greedy, e2, if_neg h3, greedy, e3, if_pos h2, greedy, e4,
      if_neg h4, greedy]

/-- Witness for C3: with the character-count metric and maxWidth 4, "a b" and
"c d" (3 characters) fit and "a b c", "c d e" (5 characters) do not. -/
theorem wrapText_greedy_witness :
    wrapText "a b c d e".toList charCountFont 8 4 = ["a b".toList, "c d".toList, "e".toList]
      ∧ wrapText "".toList charCountFont 8 4 = ["".toList]
      ∧ wrapText "foo".toList charCountFont 8 4 = ["foo".toList] :=
  (wrapText_greedy "a b c d e".toList charCountFont 8 4).2.2.2
    (by decide) (by decide) (by decide) (by decide)

/-! ## The claims on the layout loop -/

/-- C5: the texts drawn by the layout loop of createPdfFromFile, read page by
page and within a page in drawing order, are exactly the concatenation of
wrapText(line) over the raw lines in their original order: every sub-line is
drawn once, none is dropped, duplicated or reordered. -/
theorem layoutLoop_draws_subLines {α : Type} [LT α] [DecidableRel (fun (a b : α) => a < b)]
    [IntCast α] (font : Font α) (lines : List Str) :
    drawnTexts (layoutLoop font lines).docPages
      = lines.flatMap (fun line => wrapText line font (fontSize : α) (maxLineWidth : α)) :=
  layoutLoop_texts font lines

/-- C6: on every page produced by the layout loop no two sub-lines are drawn
at the same y; the first sub-line of a page is drawn at y = 790, each further
sub-line exactly 10 below the previous one, every sub-line at x = 10, and
every drawn y lies between 20 and 790. -/
theorem layoutLoop_positions {α : Type} [LT α] [DecidableRel (fun (a b : α) => a < b)]
    [IntCast α] (font : Font α) (lines : List Str) :
    ∀ p ∈ (layoutLoop font lines).docPages,
      (p.ops.map (fun d => d.y)).Nodup
        ∧ (∀ d, p.ops.head? = some d → d.y = 790)
        ∧ (∀ (pre : List DrawOp) (d e : DrawOp) (post : List DrawOp),
            p.ops = pre ++ d :: e :: post → e.y = d.y - 10)
        ∧ (∀ d ∈ p.ops, d.x = 10 ∧ 20 ≤ d.y ∧ d.y ≤ 790) := by
  intro p hp
  have hinv := layoutLoop_inv font lines
  have hpl : Placed (pageHeight - margin) p.ops ∧ p.ops.length ≤ 78 := by
    rcases List.mem_append.1 hp with h | h
    · exact ⟨(hinv.full p h).2, le_of_eq (hinv.full p h).1⟩
    · simp only [List.mem_singleton] at h
      subst h
      exact ⟨hinv.placed, hinv.room⟩
  obtain ⟨hplaced, hlen⟩ := hpl
  refine ⟨placed_nodup _ _ hplaced, ?_, ?_, ?_⟩
  · intro d hd
    cases hops : p.ops with
    | nil => simp [hops] at hd
    | cons e es =>
      rw [hops] at hd hplaced
      simp only [List.head?_cons, Option.some.injEq] at hd
      subst hd
      exact hplaced.2.1
  · intro pre d e post hops
    rw [hops] at hplaced
    exact placed_consecutive _ _ _ _ _ hplaced
  · intro d hd
    obtain ⟨a, b, c⟩ := placed_bounds _ _ hplaced d hd
    have hpos : 0 < p.ops.length := List.length_pos_of_mem hd
    simp only [pageHeight, margin, lineHeight] at a b c
    refine ⟨a, ?_, b⟩
    omega

/-- Witness for C6: the two sub-lines of the document with raw lines "a" and
"b" are drawn on one page at (10, 790) and (10, 780). -/
theorem layoutLoop_positions_witness :
    (layoutLoop charCountFont ["a".toList, "b".toList]).docPages
        = [⟨600, 800, [⟨"a".toList, 10, 790, 8⟩, ⟨"b".toList, 10, 780, 8⟩]⟩]
      ∧ ([790, 780] : List Int).Nodup
      ∧ ((780 : Int) = 790 - 10) := by
  have hpages : (layoutLoop charCountFont ["a".toList, "b".toList]).docPages
      = [⟨600, 800, [⟨"a".toList, 10, 790, 8⟩, ⟨"b".toList, 10, 780, 8⟩]⟩] := by decide
  have h := layoutLoop_positions charCountFont ["a".toList, "b".toList]
    ⟨600, 800, [⟨"a".toList, 10, 790, 8⟩, ⟨"b".toList, 10, 780, 8⟩]⟩ (by rw [hpages]; simp)
  exact ⟨hpages, h.1, h.2.2.1 [] _ _ [] rfl⟩

/-- C7: a document whose raw lines wrap to N sub-lines is laid out on exactly
max(1, ceil(N / 78)) pages of size 600x800 (ceil(N / 78) is (N + 77) / 78 in
natural-number division); a document with zero lines gives one page without
text; every page before the last carries exactly 78 sub-lines; and no page
after the first is without a sub-line. -/
theorem layoutLoop_page_count {α : Type} [LT α] [DecidableRel (fun (a b : α) => a < b)]
    [IntCast α] (font : Font α) (lines : List Str) :
    (layoutLoop font lines).docPages.length
        = max 1 (((lines.flatMap
            (fun line => wrapText line font (fontSize : α) (maxLineWidth : α))).length + 77) / 78)
      ∧ (layoutLoop font []).docPages = [⟨600, 800, []⟩]
      ∧ (∀ p ∈ (layoutLoop font lines).docPages.dropLast, p.ops.length = 78)
      ∧ (∀ p ∈ (layoutLoop font lines).docPages.tail, p.ops ≠ [])
      ∧ (∀ p ∈ (layoutLoop font lines).docPages, p.width = 600 ∧ p.height = 800) := by
  have hinv := layoutLoop_inv font lines
  have hcount := layoutInv_count _ hinv
  rw [layoutLoop_texts] at hcount
  unfold subLines at hcount
  refine ⟨?_, rfl, ?_, ?_, ?_⟩
  · have hr := hinv.room
    have hn := hinv.nonempty
    rw [hcount]
    simp only [LayoutState.docPages, List.length_append, List.length_singleton]
    rcases Nat.eq_zero_or_pos (layoutLoop font lines).pages.length with h0 | h0
    · rw [h0]
      omega
    · have hk : 0 < (layoutLoop font lines).page.ops.length :=
        List.length_pos.2 (hn (List.length_pos.1 h0))
      omega
  · intro p hp
    simp only [LayoutState.docPages, List.dropLast_concat] at hp
    exact (hinv.full p hp).1
  · intro p hp
    simp only [LayoutState.docPages] at hp
    cases hps : (layoutLoop font lines).pages with
    | nil => simp [hps] at hp
    | cons q qs =>
      rw [hps] at hp
      simp only [List.cons_append, List.tail_cons, List.mem_append, List.mem_singleton] at hp
      rcases hp with hp | hp
      · have h78 := (hinv.full p (by rw [hps]; simp [hp])).1
        intro hnil
        simp [hnil] at h78
      · subst hp
        exact hinv.nonempty (by simp [hps])
  · intro p hp
    have hs := hinv.size
    simp only [pageWidth, pageHeight] at hs
    rcases List.mem_append.1 hp with h | h
    · exact hs.2.2 p h
    · simp only [List.mem_singleton] at h
      subst h
      exact ⟨hs.1, hs.2.1⟩

/-- Witness for C7: 78 blank lines fill one page, the 79th blank line opens a
second page. -/
theorem layoutLoop_page_count_witness :
    (layoutLoop charCountFont (List.replicate 78 [])).docPages.length = 1
      ∧ (layoutLoop charCountFont (List.replicate 79 [])).docPages.length = 2 := by
  have a := (layoutLoop_page_count charCountFont (List.replicate 78 [])).1
  have b := (layoutLoop_page_count charCountFont (List.replicate 79 [])).1
  exact ⟨a.trans (by decide), b.trans (by decide)⟩


/-! ## Lemmas on paths -/

theorem split_join (sep : Char) (segs : List Str) (hne : segs ≠ [])
    (h : ∀ w ∈ segs, sep ∉ w) : split sep (join sep segs) = segs := by
  induction segs with
  | nil => exact absurd rfl hne
  | cons w ws ih =>
    cases ws with
    | nil => simpa [join] using split_of_not_mem sep w (h w (by simp))
    | cons v vs =>
      have hrec := ih (by simp) (fun x hx => h x (by simp [hx]))
      simp only [join]
      rw [split_append_sep, hrec, split_of_not_mem sep w (h w (by simp))]
      simp

theorem join_append (sep : Char) (as bs : List Str) (ha : as ≠ []) (hb : bs ≠ []) :
    join sep (as ++ bs) = join sep as ++ sep :: join sep bs := by
  induction as with
  | nil => exact absurd rfl ha
  | cons a as ih =>
    cases as with
    | nil => simpa using join_cons_of_ne_nil sep a bs hb
    | cons c cs =>
      have hrec := ih (by simp)
      simp only [List.cons_append] at hrec ⊢
      simp only [join]
      rw [hrec]
      simp

theorem join_ne_nil (sep : Char) (segs : List Str) (hne : segs ≠ [])
    (h : ∀ w ∈ segs, w ≠ []) : join sep segs ≠ [] := by
  cases segs with
  | nil => exact absurd rfl hne
  | cons w ws =>
    have hw := h w (by simp)
    cases ws with
    | nil => simpa [join] using hw
    | cons v vs => simp [join, hw]

theorem getLast?_join (segs : List Str) (hne : segs ≠ []) (h : ∀ w ∈ segs, IsEntryName w) :
    (join '/' segs).getLast? ≠ some '/' := by
  induction segs with
  | nil => exact absurd rfl hne
  | cons w ws ih =>
    cases ws with
    | nil =>
      obtain ⟨hw, hsl, _⟩ := h w (by simp)
      simp only [join]
      intro hlast
      exact hsl (List.mem_of_getLast?_eq_some hlast)
    | cons v vs =>
      have hrec := ih (by simp) (fun x hx => h x (by simp [hx]))
      have hnn : join '/' (v :: vs) ≠ [] :=
        join_ne_nil _ _ (by simp) (fun x hx => (h x (by simp [hx])).1)
      simp only [join] at hrec ⊢
      rw [List.getLast?_append_of_ne_nil _ (by simp)]
      obtain ⟨c, cs, hX⟩ := List.exists_cons_of_ne_nil hnn
      rw [hX] at hrec ⊢
      rw [List.getLast?_cons_cons]
      exact hrec

theorem head?_join (segs : List Str) (hne : segs ≠ []) (h : ∀ w ∈ segs, IsEntryName w) :
    (join '/' segs).head? ≠ some '/' := by
  cases segs with
  | nil => exact absurd rfl hne
  | cons w ws =>
    obtain ⟨hw, hsl, _⟩ := h w (by simp)
    obtain ⟨c, cs, hwc⟩ := List.exists_cons_of_ne_nil hw
    have hc : c ≠ '/' := by
      intro e
      apply hsl
      rw [hwc, e]
      simp
    cases ws with
    | nil => simpa [join, hwc] using hc
    | cons v vs => simpa [join, hwc] using hc

theorem normalizeSegments_clean (allowAboveRoot : Bool) (segs res : List Str)
    (h : ∀ w ∈ segs, IsEntryName w) :
    normalizeSegments allowAboveRoot segs res = res ++ segs := by
  induction segs generalizing res with
  | nil => simp [normalizeSegments]
  | cons w ws ih =>
    obtain ⟨h1, _, h3, h4⟩ := h w (by simp)
    rw [normalizeSegments]
    simp only [h1, h3, h4, or_self, if_false]
    rw [ih _ (fun x hx => h x (by simp [hx]))]
    simp

theorem normalize_join (segs : List Str) (hne : segs ≠ []) (h : ∀ w ∈ segs, IsEntryName w) :
    normalize (join '/' segs) = join '/' segs := by
  have hnn : join '/' segs ≠ [] := join_ne_nil _ _ hne (fun w hw => (h w hw).1)
  have hhead := head?_join segs hne h
  have hlast := getLast?_join segs hne h
  have hsplit := split_join '/' segs hne (fun w hw => (h w hw).2.1)
  unfold normalize
  simp only [hnn, if_false, hsplit, normalizeSegments_clean _ _ _ h, List.nil_append,
    decide_eq_true_eq, hlast, hhead]

theorem pathJoin_join (as bs : List Str) (hb : bs ≠ []) (ha : ∀ w ∈ as, IsEntryName w)
    (hbs : ∀ w ∈ bs, IsEntryName w) :
    pathJoin (join '/' as) (join '/' bs) = join '/' (as ++ bs) := by
  have hbn : join '/' bs ≠ [] := join_ne_nil _ _ hb (fun w hw => (hbs w hw).1)
  cases as with
  | nil =>
    simp only [pathJoin, join, List.nil_append]
    simp only [List.filter, hbn, ne_eq, not_true_eq_false, decide_False, not_false_eq_true,
      decide_True]
    exact normalize_join bs hb hbs
  | cons a as =>
    have han : join '/' (a :: as) ≠ [] :=
      join_ne_nil _ _ (by simp) (fun w hw => (ha w hw).1)
    simp only [pathJoin]
    simp only [List.filter, hbn, han, ne_eq, not_false_eq_true, decide_True]
    have hj : join '/' [join '/' (a :: as), join '/' bs] = join '/' ((a :: as) ++ bs) := by
      rw [join_append _ _ _ (by simp) hb]
      simp [join]
    rw [hj]
    exact normalize_join _ (by simp) (fun w hw => by
      rcases List.mem_append.1 hw with h1 | h1
      · exact ha w h1
      · exact hbs w h1)

theorem replaceFirst_append (pat rep rest : Str) (hp : pat ≠ []) :
    replaceFirst pat rep (pat ++ rest) = rep ++ rest := by
  obtain ⟨c, cs, hpc⟩ := List.exists_cons_of_ne_nil hp
  have hpre : pat.isPrefixOf (pat ++ rest) = true := by
    rw [List.isPrefixOf_iff_prefix]
    exact List.prefix_append _ _
  have hcons : pat ++ rest = c :: (cs ++ rest) := by simp [hpc]
  rw [hcons, replaceFirst, ← hcons, if_pos hpre]
  simp

theorem createPdfFromFilePath_join (segs : List Str) (hne : segs ≠ [])
    (h : ∀ w ∈ segs, IsEntryName w) :
    createPdfFromFilePath (join '/' segs)
      = (outputDirectory ++ "/".toList) ++ (join '/' segs ++ ".pdf".toList) := by
  have hout : outputDirectory = join '/' ["output".toList, "astrix-event-api-alpha".toList] := by
    decide
  have hclean : ∀ w ∈ ["output".toList, "astrix-event-api-alpha".toList], IsEntryName w := by
    decide
  unfold createPdfFromFilePath
  rw [hout, pathJoin_join _ _ hne hclean h, join_append _ _ _ (by simp) hne]
  simp

theorem filePathComment_createPdfFromFilePath (segs : List Str) (hne : segs ≠ [])
    (h : ∀ w ∈ segs, IsEntryName w) :
    filePathComment (createPdfFromFilePath (join '/' segs))
      = "// ".toList ++ join '/' segs ++ ".pdf".toList := by
  unfold filePathComment
  rw [createPdfFromFilePath_join segs hne h, replaceFirst_append _ _ _ (by decide)]
  simp

/-! ## Lemmas on traverseDirectory -/

theorem pathJoin_name (segs : List Str) (name : Str) (h : ∀ w ∈ segs, IsEntryName w)
    (hn : IsEntryName name) :
    pathJoin (join '/' segs) name = join '/' (segs ++ [name]) := by
  have := pathJoin_join segs [name] (by simp) h (by simpa using hn)
  simpa [join] using this

mutual
theorem traverseDirectory_paths (renders : Str → Str → Bool) (directory : Str)
    (segs : List Str) (hsegs : ∀ w ∈ segs, IsEntryName w) :
    ∀ (files : List Entry) (pdfFiles : List Str), WellNamedList files →
      (∀ x ∈ pdfFiles, IsRenderedPath x) →
      ∀ x ∈ traverseDirectory renders directory (join '/' segs) files pdfFiles,
        IsRenderedPath x
  | [], pdfFiles, _, hacc => by
    intro x hx
    rw [traverseDirectory] at hx
    exact hacc x hx
  | file :: files, pdfFiles, hwn, hacc => by
    intro x hx
    rw [traverseDirectory] at hx
    rw [WellNamedList] at hwn
    exact traverseDirectory_paths renders directory segs hsegs files _ hwn.2
      (traverseEntry_paths renders directory segs hsegs file pdfFiles hwn.1 hacc) x hx
theorem traverseEntry_paths (renders : Str → Str → Bool) (directory : Str)
    (segs : List Str) (hsegs : ∀ w ∈ segs, IsEntryName w) :
    ∀ (file : Entry) (pdfFiles : List Str), Entry.WellNamed file →
      (∀ x ∈ pdfFiles, IsRenderedPath x) →
      ∀ x ∈ traverseEntry renders directory (join '/' segs) file pdfFiles,
        IsRenderedPath x
  | Entry.dir name children, pdfFiles, hwn, hacc => by
    intro x hx
    rw [Entry.WellNamed] at hwn
    rw [traverseEntry] at hx
    split_ifs at hx
    · exact hacc x hx
    · rw [pathJoin_name segs name hsegs hwn.1] at hx
      exact traverseDirectory_paths renders (pathJoin directory name) (segs ++ [name])
        (fun w hw => by
          rcases List.mem_append.1 hw with h | h
          · exact hsegs w h
          · simp only [List.mem_singleton] at h
            rw [h]
            exact hwn.1)
        children pdfFiles hwn.2 hacc x hx
  | Entry.file name, pdfFiles, hwn, hacc => by
    intro x hx
    rw [Entry.WellNamed] at hwn
    rw [traverseEntry] at hx
    split_ifs at hx
    · rcases List.mem_append.1 hx with h | h
      · exact hacc x h
      · simp only [List.mem_singleton] at h
        rw [pathJoin_name segs name hsegs hwn] at h
        exact ⟨segs ++ [name], by simp, fun w hw => by
          rcases List.mem_append.1 hw with h1 | h1
          · exact hsegs w h1
          · simp only [List.mem_singleton] at h1
            rw [h1]
            exact hwn, h⟩
    · exact hacc x hx
    · exact hacc x hx
end

/-- Every path returned by `traverseDirectory` started at the root (empty
relative directory, empty list) is what `createPdfFromFile` returns for a
relative path made of entry names separated by "/". -/
theorem traverseDirectory_root_paths (renders : Str → Str → Bool) (directory : Str)
    (files : List Entry) (h : WellNamedList files) :
    ∀ x ∈ traverseDirectory renders directory [] files [], IsRenderedPath x :=
  traverseDirectory_paths renders directory [] (by simp) files [] h (by simp)

/-! ## Lemmas on mergePdfs -/

theorem mergeStep_eq_append {Doc : Type} (env : MergeEnv Doc) (acc : List Page) (path : Str) :
    mergeStep env acc path = acc ++ mergeStep env [] path := by
  rcases hr : env.readFileSync path with _ | data
  · simp [mergeStep, hr]
  · rcases hl : env.load data with _ | doc
    · simp [mergeStep, hr, hl]
    · rcases hc : env.copyPages doc with _ | ps <;> simp [mergeStep, hr, hl, hc]

theorem foldl_mergeStep {Doc : Type} (env : MergeEnv Doc) (paths : List Str) (acc : List Page) :
    paths.foldl (mergeStep env) acc = acc ++ paths.flatMap (mergeStep env []) := by
  induction paths generalizing acc with
  | nil => simp
  | cons q qs ih =>
    rw [List.foldl_cons, ih, mergeStep_eq_append, List.flatMap_cons, List.append_assoc]

/-- The merged document is the saved concatenation, in input order, of what
each input contributes on its own. -/
theorem mergePdfs_eq_flatMap {Doc : Type} (env : MergeEnv Doc) (paths : List Str) :
    mergePdfs env paths = save (paths.flatMap (mergeStep env [])) := by
  unfold mergePdfs
  rw [foldl_mergeStep]
  simp

theorem save_of_ne_nil (pages : List Page) (h : pages ≠ []) : save pages = pages := by
  simp [save, h]

theorem save_length (pages : List Page) : (save pages).length = max 1 pages.length := by
  unfold save
  cases pages with
  | nil => simp [defaultPage]
  | cons p ps =>
    simp only [List.cons_ne_nil, if_false, List.length_cons]
    omega

/-- When every step succeeds for an input, it contributes its header page
followed by its pages; when reading or loading fails, it contributes nothing. -/
theorem mergeStep_cases {Doc : Type} (env : MergeEnv Doc) (path : Str) :
    (env.readFileSync path = none → mergeStep env [] path = [])
      ∧ (∀ data, env.readFileSync path = some data → env.load data = none →
          mergeStep env [] path = [])
      ∧ (∀ data doc ps, env.readFileSync path = some data → env.load data = some doc →
          env.copyPages doc = some ps → mergeStep env [] path = headerPage path :: ps)
      ∧ (∀ data doc, env.readFileSync path = some data → env.load data = some doc →
          env.copyPages doc = none → mergeStep env [] path = [headerPage path]) := by
  refine ⟨?_, ?_, ?_, ?_⟩
  · intro h
    simp [mergeStep, h]
  · intro data h1 h2
    simp [mergeStep, h1, h2]
  · intro data doc ps h1 h2 h3
    simp [mergeStep, h1, h2, h3]
  · intro data doc h1 h2 h3
    simp [mergeStep, h1, h2, h3]

theorem mergeStep_of_copied {Doc : Type} (env : MergeEnv Doc) (path : Str) (ps : List Page)
    (h : ((env.readFileSync path).bind env.load).bind env.copyPages = some ps) :
    mergeStep env [] path = headerPage path :: ps := by
  rcases hr : env.readFileSync path with _ | data
  · simp [hr] at h
  · rcases hl : env.load data with _ | doc
    · simp [hr, hl] at h
    · rcases hc : env.copyPages doc with _ | qs
      · simp [hr, hl, hc] at h
      · simp only [hr, hl, hc, Option.some_bind, Option.some.injEq] at h
        subst h
        simp [mergeStep, hr, hl, hc]

theorem mergeStep_length {Doc : Type} (env : MergeEnv Doc) (path : Str)
    (h : ∀ doc, (env.readFileSync path).bind env.load = some doc → env.copyPages doc ≠ none) :
    (mergeStep env [] path).length
      = match ((env.readFileSync path).bind env.load).bind env.copyPages with
        | some pages => 1 + pages.length
        | none => 0 := by
  rcases hr : env.readFileSync path with _ | data
  · simp [mergeStep, hr]
  · rcases hl : env.load data with _ | doc
    · simp [mergeStep, hr, hl]
    · rcases hc : env.copyPages doc with _ | qs
      · exact absurd hc (h doc (by simp [hr, hl]))
      · simp only [mergeStep, hr, hl, hc, Option.some_bind, List.nil_append, List.cons_append,
          List.length_cons]
        exact Nat.add_comm _ _

theorem flatMap_mergeStep_length {Doc : Type} (env : MergeEnv Doc) (paths : List Str)
    (h : ∀ path ∈ paths, ∀ doc,
      (env.readFileSync path).bind env.load = some doc → env.copyPages doc ≠ none) :
    (paths.flatMap (mergeStep env [])).length
      = (paths.map (fun path =>
          match ((env.readFileSync path).bind env.load).bind env.copyPages with
          | some pages => 1 + pages.length
          | none => 0)).sum := by
  induction paths with
  | nil => simp
  | cons q qs ih =>
    rw [List.flatMap_cons, List.length_append, List.map_cons, List.sum_cons,
      ih (fun path hp => h path (by simp [hp])), mergeStep_length env q (h q (by simp))]

/-! ## The claims on traversal and merge -/

/-- C4 (counterexample): for the inputs "a.pdf", "damaged.pdf", "c.pdf", all
read and loaded successfully, the merged document is header(a), page(a),
header(damaged), header(c), page(c): the two pages of "damaged.pdf", whose
copy throws after its header page was added, are absent, so the page count is
5 and not (1 + 1) + (1 + 2) + (1 + 1) = 7. And when no input loads (no input
at all, or only "missing.pdf" and "corrupt.pdf"), the written document is not
empty: it has one blank 595.28 x 841.89 page, which is neither a header page
nor a page of an input. -/
theorem mergePdfs_loaded_without_pages :
    (∀ path ∈ ["a.pdf".toList, "damaged.pdf".toList, "c.pdf".toList],
        ∃ data doc, exampleEnv.readFileSync path = some data
          ∧ exampleEnv.load data = some doc)
      ∧ exampleEnv.load "damaged.pdf".toList
          = some ⟨[bodyPage "p1".toList, bodyPage "p2".toList], false⟩
      ∧ mergePdfs exampleEnv ["a.pdf".toList, "damaged.pdf".toList, "c.pdf".toList]
          = [headerPage "a.pdf".toList, bodyPage "a.pdf".toList,
             headerPage "damaged.pdf".toList,
             headerPage "c.pdf".toList, bodyPage "c.pdf".toList]
      ∧ (mergePdfs exampleEnv
          ["a.pdf".toList, "damaged.pdf".toList, "c.pdf".toList]).length = 5
      ∧ mergePdfs exampleEnv [] = [⟨595.28, 841.89, []⟩]
      ∧ mergePdfs exampleEnv ["missing.pdf".toList, "corrupt.pdf".toList]
          = [⟨595.28, 841.89, []⟩] := by
  refine ⟨?_, by decide, by decide, by decide, rfl, rfl⟩
  intro path hp
  simp only [List.mem_cons, List.mem_singleton, List.not_mem_nil, or_false] at hp
  rcases hp with h | h | h <;> subst h
  · exact ⟨"a.pdf".toList, ⟨[bodyPage "a.pdf".toList], true⟩, by decide, by decide⟩
  · exact ⟨"damaged.pdf".toList, ⟨[bodyPage "p1".toList, bodyPage "p2".toList], false⟩,
      by decide, by decide⟩
  · exact ⟨"c.pdf".toList, ⟨[bodyPage "c.pdf".toList], true⟩, by decide, by decide⟩

/-- C4 (amended): let the contributed pages be the concatenation, in input
order, of what each input contributes: an input that is read, loaded and
copied successfully contributes one 600x50 header page followed by all its
pages in their original order, and an input whose read or load fails
contributes no page and does not stop the loop (what an input contributes when
copying its pages fails is not stated). The page sequence of the document that
mergePdfs writes is the contributed pages when there is at least one, and a
single blank 595.28 x 841.89 page, added by save(), when there is none. Hence,
when no copy fails, the page count is the sum over the loaded inputs of
1 + that input's page count, or 1 when that sum is 0; and inputs [A, B, C] that
are all processed successfully give header(A), pages(A), header(B), pages(B),
header(C), pages(C). -/
theorem mergePdfs_order {Doc : Type} (env : MergeEnv Doc) (pdfPaths : List Str) :
    (∃ (onCopyFailure : Str → List Page) (contributed : List Page),
        contributed = pdfPaths.flatMap (fun path =>
          match (env.readFileSync path).bind env.load with
          | none => []
          | some doc =>
            match env.copyPages doc with
            | some pages => ⟨600, 50, [⟨filePathComment path, 20, 30, 10⟩]⟩ :: pages
            | none => onCopyFailure path)
        ∧ (contributed ≠ [] → mergePdfs env pdfPaths = contributed)
        ∧ (contributed = [] → mergePdfs env pdfPaths = [⟨595.28, 841.89, []⟩]))
      ∧ ((∀ path ∈ pdfPaths, ∀ doc,
            (env.readFileSync path).bind env.load = some doc → env.copyPages doc ≠ none) →
          (mergePdfs env pdfPaths).length
            = max 1 (pdfPaths.map (fun path =>
                match ((env.readFileSync path).bind env.load).bind env.copyPages with
                | some pages => 1 + pages.length
                | none => 0)).sum)
      ∧ (∀ (a b c : Str) (pa pb pc : List Page), pdfPaths = [a, b, c] →
          ((env.readFileSync a).bind env.load).bind env.copyPages = some pa →
          ((env.readFileSync b).bind env.load).bind env.copyPages = some pb →
          ((env.readFileSync c).bind env.load).bind env.copyPages = some pc →
          mergePdfs env pdfPaths
            = (headerPage a :: pa) ++ (headerPage b :: pb) ++ (headerPage c :: pc)) := by
  refine ⟨⟨fun path => [headerPage path], pdfPaths.flatMap (mergeStep env []), ?_, ?_, ?_⟩,
    ?_, ?_⟩
  · congr 1
    funext path
    rcases hr : env.readFileSync path with _ | data
    · simp [mergeStep, hr]
    · rcases hl : env.load data with _ | doc
      · simp [mergeStep, hr, hl]
      · rcases hc : env.copyPages doc with _ | qs
        · simp [mergeStep, hr, hl, hc]
        · simp [mergeStep, hr, hl, hc, headerPage, newPage, Page.drawText]
  · intro hne
    rw [mergePdfs_eq_flatMap, save_of_ne_nil _ hne]
  · intro hnil
    rw [mergePdfs_eq_flatMap, hnil]
    rfl
  · intro h
    rw [mergePdfs_eq_flatMap, save_length, flatMap_mergeStep_length env pdfPaths h]
  · intro a b c pa pb pc hp ha hb hc
    rw [hp, mergePdfs_eq_flatMap]
    simp only [List.flatMap_cons, List.flatMap_nil, List.append_nil,
      mergeStep_of_copied env a pa ha, mergeStep_of_copied env b pb hb,
      mergeStep_of_copied env c pc hc, List.append_assoc]
    exact save_of_ne_nil _ (by simp)

/-- Witness for C4 (amended): of the inputs "a.pdf", "corrupt.pdf", "c.pdf" the
second does not load and the merged document has the headers and pages of the
two others, 4 pages in all; when the only input does not load the written
document has 1 page; and three sound inputs give header and page of each in
order. -/
theorem mergePdfs_order_witness :
    (mergePdfs exampleEnv ["a.pdf".toList, "corrupt.pdf".toList, "c.pdf".toList]).length = 4
      ∧ (mergePdfs exampleEnv ["corrupt.pdf".toList]).length = 1
      ∧ mergePdfs exampleEnv ["a.pdf".toList, "b.pdf".toList, "c.pdf".toList]
          = (headerPage "a.pdf".toList :: [bodyPage "a.pdf".toList])
            ++ (headerPage "b.pdf".toList :: [bodyPage "b.pdf".toList])
            ++ (headerPage "c.pdf".toList :: [bodyPage "c.pdf".toList]) :=
  ⟨((mergePdfs_order exampleEnv
      ["a.pdf".toList, "corrupt.pdf".toList, "c.pdf".toList]).2.1 (by decide)).trans
      (by decide),
    ((mergePdfs_order exampleEnv ["corrupt.pdf".toList]).2.1 (by decide)).trans (by decide),
    (mergePdfs_order exampleEnv ["a.pdf".toList, "b.pdf".toList, "c.pdf".toList]).2.2
      _ _ _ _ _ _ rfl (by decide) (by decide) (by decide)⟩

/-- C8 (counterexample): for the file with relative path "a.js", the text drawn
on its header page is "// a.js.pdf", not "// a.js". -/
theorem header_text_counterexample :
    createPdfFromFilePath "a.js".toList = "output/astrix-event-api-alpha/a.js.pdf".toList
      ∧ mergePdfs exampleEnv [createPdfFromFilePath "a.js".toList]
          = [⟨600, 50, [⟨"// a.js.pdf".toList, 20, 30, 10⟩]⟩,
             bodyPage "output/astrix-event-api-alpha/a.js.pdf".toList]
      ∧ ¬ (mergePdfs exampleEnv [createPdfFromFilePath "a.js".toList]).head?
          = some ⟨600, 50, [⟨"// ".toList ++ "a.js".toList, 20, 30, 10⟩]⟩ := by
  refine ⟨by decide, by decide, by decide⟩

/-- C8 (amended): for a source file whose relative path p is a sequence of
directory entry names separated by "/", when mergePdfs reads and loads the PDF
that createPdfFromFile returned for it, the page it adds first is a 600x50
page whose single line of text, drawn at (20, 30) in size 10, is "// "
followed by p followed by ".pdf". -/
theorem header_text_is_pdf_path {Doc : Type} (env : MergeEnv Doc) (segs : List Str)
    (acc : List Page) (data : Str) (doc : Doc)
    (hne : segs ≠ []) (hnames : ∀ w ∈ segs, IsEntryName w)
    (hread : env.readFileSync (createPdfFromFilePath (join '/' segs)) = some data)
    (hload : env.load data = some doc) :
    ∃ rest, mergeStep env acc (createPdfFromFilePath (join '/' segs))
      = acc ++ ⟨600, 50, [⟨"// ".toList ++ join '/' segs ++ ".pdf".toList, 20, 30, 10⟩]⟩
          :: rest := by
  have hpage : headerPage (createPdfFromFilePath (join '/' segs))
      = ⟨600, 50, [⟨"// ".toList ++ join '/' segs ++ ".pdf".toList, 20, 30, 10⟩]⟩ := by
    unfold headerPage
    rw [filePathComment_createPdfFromFilePath segs hne hnames]
    rfl
  rw [← hpage]
  unfold mergeStep
  rw [hread]
  simp only [hload]
  cases env.copyPages doc with
  | none => exact ⟨[], by simp⟩
  | some ps => exact ⟨ps, by simp⟩

/-- Witness for C8 (amended): the file "src/a.js" gets the header text
"// src/a.js.pdf". -/
theorem header_text_is_pdf_path_witness :
    ∃ rest, mergeStep exampleEnv []
        (createPdfFromFilePath (join '/' ["src".toList, "a.js".toList]))
      = [] ++ ⟨600, 50,
          [⟨"// ".toList ++ join '/' ["src".toList, "a.js".toList] ++ ".pdf".toList,
            20, 30, 10⟩]⟩ :: rest :=
  header_text_is_pdf_path exampleEnv ["src".toList, "a.js".toList] []
    "output/astrix-event-api-alpha/src/a.js.pdf".toList
    ⟨[bodyPage "output/astrix-event-api-alpha/src/a.js.pdf".toList], true⟩
    (by decide) (by decide) (by decide) (by decide)

/-- C9 (evaluation at the failing input): "drizzle.config.ts" is in
ignoreDirectories, yet for a root directory that holds a file of that name
traverseDirectory returns the PDF made from it; the file below the ignored
directory "drizzle" and the file with extension ".md" are left out. -/
theorem traverseDirectory_renders_ignored_file :
    "drizzle.config.ts".toList ∈ ignoreDirectories
      ∧ traverseDirectory (fun _ _ => true) "../astrix/astrix-event-api-alpha".toList []
          [Entry.file "drizzle.config.ts".toList,
           Entry.dir "drizzle".toList [Entry.file "schema.sql".toList],
           Entry.file "Readme.md".toList] []
        = ["output/astrix-event-api-alpha/drizzle.config.ts.pdf".toList] := by
  refine ⟨by decide, by decide⟩

/-- C10 (evaluation at the failing input): "damaged.pdf" is read and loaded,
its header page is added, and then copying its pages throws; the merged
document keeps the header page without any of the two content pages. -/
theorem mergePdfs_header_without_content :
    exampleEnv.readFileSync "damaged.pdf".toList = some "damaged.pdf".toList
      ∧ exampleEnv.load "damaged.pdf".toList
          = some ⟨[bodyPage "p1".toList, bodyPage "p2".toList], false⟩
      ∧ exampleEnv.copyPages ⟨[bodyPage "p1".toList, bodyPage "p2".toList], false⟩ = none
      ∧ mergePdfs exampleEnv ["damaged.pdf".toList]
          = [⟨600, 50, [⟨"// damaged.pdf".toList, 20, 30, 10⟩]⟩] := by
  refine ⟨by decide, by decide, by decide, by decide⟩

end PdfGen
